import Mathlib

/-!
Verification of the VDS (split VariantDataset) data model and its
combine / filter / segment / convert operations, together with the
Python-level `same` wrapper and the summary-widget action registry.

The VDS operations themselves (`hl.vds.filter_samples`,
`hl.vds.combiner.combine_variant_datasets`, `validate`,
`segment_reference_blocks`, `from_merged_representation`,
`to_merged_sparse_mt`) are exercised by the test suite
(`src/hail/python/test/hail/vds/test_vds.py`) but their implementation is
not among the provided sources, so they are modelled from the
specification; each such definition's doc comment says so.
The `same` wrapper (`src/python/pyhail/dataset.py`) and the widget action
registry (`src/python/hail/vis/interact.py`) are embedded directly from
the source.
-/

/-- A genomic locus: a contig name and a 1-based position on it. -/
structure Locus where
  contig : String
  position : Nat
deriving DecidableEq

/-- Modelled from the spec: one defined entry of a reference-block or
variant matrix (the implementations of the VDS operations are not among
the provided sources).  `locus`/`sample` key the entry; `alleles` is the
site allele list (index 0 is the reference allele); `END` is the last
position, inclusive, covered by a homozygous-reference run (defined on
reference entries, missing on variant entries); `LA` is the local-allele
index list and `LGT` the local genotype call expressed as indices into
`LA`. -/
structure Entry where
  locus : Locus
  sample : String
  alleles : List String
  «END» : Option Nat
  LA : List Nat
  LGT : List Nat
deriving DecidableEq

/-- Modelled from the spec: a split VariantDataset — a sample (column)
universe shared by both matrices, plus the defined entries of
`reference_data` and of `variant_data`.  Sparse representation: an entry
absent from the list is undefined. -/
structure VariantDataset where
  samples : List String
  refEntries : List Entry
  varEntries : List Entry
deriving DecidableEq

/-- Keep only the entries whose sample is in `keep`. -/
def filterBySample (keep : List String) (l : List Entry) : List Entry :=
  l.filter (fun e => decide (e.sample ∈ keep))

/-- Allele index `i` at site (`loc`, `als`) is retained when it is the
reference allele (index 0) or some entry of the row still references it
through its local-allele list `LA`. -/
def alleleLive (ents : List Entry) (loc : Locus) (als : List String) (i : Nat) : Bool :=
  decide (i = 0) ||
    ents.any (fun e => decide (e.locus = loc) && decide (e.alleles = als) && decide (i ∈ e.LA))

/-- Indices into the site allele list that survive dead-allele removal,
in their original order. -/
def keptAlleleIdxs (ents : List Entry) (loc : Locus) (als : List String) : List Nat :=
  (List.range als.length).filter (alleleLive ents loc als)

/-- Rewrite one variant entry after dead-allele removal: the site allele
list keeps only live indices, and every local-allele index is renumbered
to its position among the kept indices. -/
def remapEntry (ents : List Entry) (e : Entry) : Entry :=
  let kept := keptAlleleIdxs ents e.locus e.alleles
  { e with alleles := kept.map (fun i => e.alleles.getD i ""),
           LA := e.LA.map (fun i => kept.indexOf i) }

/-- Modelled from the spec: `hl.vds.filter_samples` (implementation not
among the provided sources; only the test suite calls it).  Projects both
matrices onto the samples named in `keep`; when `removeDeadAlleles` is
set, alleles no longer referenced by any retained entry are dropped from
each site's allele list and local-allele indices are renumbered
consistently, the reference allele never being dropped. -/
def filter_samples (vds : VariantDataset) (keep : List String)
    (removeDeadAlleles : Bool) : VariantDataset :=
  let varE := filterBySample keep vds.varEntries
  { samples := keep,
    refEntries := filterBySample keep vds.refEntries,
    varEntries := if removeDeadAlleles then varE.map (remapEntry varE) else varE }

/-- Union of two sample universes, keeping the left universe's order and
appending the unseen samples of the right one. -/
def sampleUnion (a b : List String) : List String :=
  a ++ b.filter (fun s => decide (s ∉ a))

/-- Modelled from the spec: the pairwise merge underlying the combiner —
column-wise outer join: sample universes are unioned and the defined
entries of both inputs are all present in the result. -/
def merge2 (x y : VariantDataset) : VariantDataset :=
  { samples := sampleUnion x.samples y.samples,
    refEntries := x.refEntries ++ y.refEntries,
    varEntries := x.varEntries ++ y.varEntries }

/-- The VDS with no samples and no entries, neutral input of the combiner. -/
def emptyVDS : VariantDataset := ⟨[], [], []⟩

/-- Modelled from the spec: `hl.vds.combiner.combine_variant_datasets`
(implementation not among the provided sources).  Merges a list of VDSs:
row union and column union over all inputs. -/
def combine_variant_datasets (l : List VariantDataset) : VariantDataset :=
  l.foldr merge2 emptyVDS

/-- Two sample universes holding the same samples. -/
def sameSet (a b : List String) : Prop := ∀ s, s ∈ a ↔ s ∈ b

/-- Content equality of two VDSs, irrespective of partitioning or
physical order: equal sample sets and permutation-equal entry lists. -/
def ContentEq (x y : VariantDataset) : Prop :=
  sameSet x.samples y.samples ∧ x.refEntries.Perm y.refEntries ∧ x.varEntries.Perm y.varEntries

/-- Every entry's sample belongs to the VDS's sample universe. -/
def WellFormed (v : VariantDataset) : Prop :=
  (∀ e ∈ v.refEntries, e.sample ∈ v.samples) ∧ (∀ e ∈ v.varEntries, e.sample ∈ v.samples)

instance : DecidablePred WellFormed := fun v => by
  unfold WellFormed; infer_instance

-- ### Validation

/-- The row key of a reference entry: its (locus, sample) pair. -/
def refKey (e : Entry) : Locus × String := (e.locus, e.sample)

/-- Some (locus, sample) key occurs twice in the reference entry list. -/
def hasDupKeys : List Entry → Bool
  | [] => false
  | e :: rest => rest.any (fun e2 => decide (refKey e2 = refKey e)) || hasDupKeys rest

/-- A reference entry violating the END invariant: `END` missing, or
`END` before the entry's own position. -/
def badRefEntry (e : Entry) : Bool :=
  match e.«END» with
  | none => true
  | some n => decide (n < e.locus.position)

/-- Modelled from the spec: `VariantDataset.validate` (implementation not
among the provided sources).  Read-only check failing with a value-domain
error when reference_data has a duplicate (locus, sample) row or some
defined reference entry lacks `END` or has `END` before its position. -/
def validate (vds : VariantDataset) : Except String Unit :=
  if hasDupKeys vds.refEntries then
    Except.error "reference data has duplicate rows"
  else if vds.refEntries.any badRefEntry then
    Except.error "reference data has invalid END field"
  else
    Except.ok ()

-- ### Merged sparse representation

/-- A merged entry is a reference-coverage record exactly when its `END`
is defined. -/
def hasEND (e : Entry) : Bool := e.«END».isSome

/-- Modelled from the spec:
`hl.vds.VariantDataset.from_merged_representation` (implementation not
among the provided sources).  Partitions the defined entries of a merged
sparse matrix: those with a defined `END` become reference_data, the rest
variant_data. -/
def from_merged_representation (m : List Entry) : VariantDataset :=
  { samples := (m.map (fun e => e.sample)).dedup,
    refEntries := m.filter hasEND,
    varEntries := m.filter (fun e => !(hasEND e)) }

/-- Modelled from the spec: `hl.vds.to_merged_sparse_mt` (implementation
not among the provided sources).  Reunites the two matrices of a VDS into
one merged sparse matrix. -/
def to_merged_sparse_mt (vds : VariantDataset) : List Entry :=
  vds.refEntries ++ vds.varEntries

-- ### Reference-block segmentation

/-- A genomic interval on one contig: start position (inclusive), end
position, and whether the end position itself is included. -/
structure GenomicInterval where
  contig : String
  startPos : Nat
  endPos : Nat
  includesEnd : Bool
deriving DecidableEq

/-- Last position actually covered by an interval. -/
def lastPos (I : GenomicInterval) : Nat := if I.includesEnd then I.endPos else I.endPos - 1

/-- Does interval `I` cover position `p` on contig `c`? -/
def coversB (I : GenomicInterval) (c : String) (p : Nat) : Bool :=
  decide (I.contig = c) && decide (I.startPos ≤ p) && decide (p ≤ lastPos I)

/-- Does interval `I` overlap the span from `pos` to `endP` on contig `c`? -/
def overlapsB (I : GenomicInterval) (c : String) (pos endP : Nat) : Bool :=
  decide (I.contig = c) && decide (I.startPos ≤ endP) && decide (pos ≤ lastPos I)

/-- One output row of the segmenter: keyed by (interval, adjusted locus,
sample), carrying the recomputed, always-defined `END`. -/
structure SegEntry where
  interval : GenomicInterval
  locus : Locus
  sample : String
  «END» : Nat
deriving DecidableEq

/-- Pieces emitted for one reference entry: one output row per interval
overlapping the entry's span, with the locus adjusted to the interval
start and `END` clipped to the interval's last covered position. -/
def segmentEntry (intervals : List GenomicInterval) (e : Entry) : List SegEntry :=
  match e.«END» with
  | none => []
  | some endP =>
      (intervals.filter
          (fun I => overlapsB I e.locus.contig e.locus.position endP)).map
        (fun I =>
          { interval := I,
            locus := ⟨e.locus.contig, max e.locus.position I.startPos⟩,
            sample := e.sample,
            «END» := min endP (lastPos I) })

/-- Modelled from the spec: `hl.vds.segment_reference_blocks`
(implementation not among the provided sources).  Re-keys every reference
entry against the supplied intervals, emitting one clipped row per
overlapped interval. -/
def segment_reference_blocks (refs : List Entry) (intervals : List GenomicInterval) : List SegEntry :=
  refs.flatMap (segmentEntry intervals)

/-- Number of bases covered by a reference entry: `END + 1 - position`. -/
def entryLen (e : Entry) : Nat := e.«END».getD 0 + 1 - e.locus.position

/-- Number of bases covered by a segmented entry. -/
def segLen (o : SegEntry) : Nat := o.«END» + 1 - o.locus.position

/-- Total covered bases of one sample over a reference entry list. -/
def refCoverage (refs : List Entry) (s : String) : Nat :=
  ((refs.filter (fun e => decide (e.sample = s))).map entryLen).sum

/-- Total covered bases of one sample over a segmented entry list. -/
def segCoverage (l : List SegEntry) (s : String) : Nat :=
  ((l.filter (fun o => decide (o.sample = s))).map segLen).sum

-- ### The Python-level `same` wrapper (src/python/pyhail/dataset.py)

/-- The Python `VariantDataset` wrapper: it holds only the engine-side
handle `jvds`; every comparison is delegated across the bridge. -/
structure PyVariantDataset (J : Type) where
  jvds : J
deriving DecidableEq

/-- The numeric tolerance the wrapper hard-codes: `1e-6`. -/
def sameTolerance : ℚ := 1 / 1000000

/-- `VariantDataset.same` from `src/python/pyhail/dataset.py`: calls the
engine's equality check on the two handles, always passing the fixed
tolerance `1e-6`; the method takes no tolerance parameter. -/
def PyVariantDataset.same {J : Type} (engineSame : J → J → ℚ → Bool)
    (a b : PyVariantDataset J) : Bool :=
  engineSame a.jvds b.jvds sameTolerance

/-- One interpretation of the engine's `same`: the handles are lists of
numeric fields, compared pointwise up to the given tolerance. -/
def ratFieldsSame (a b : List ℚ) (tol : ℚ) : Bool :=
  decide (a.length = b.length) &&
    (a.zip b).all (fun p => decide (p.1 - p.2 ≤ tol) && decide (p.2 - p.1 ≤ tol))

-- ### The summary-widget action registry (src/python/hail/vis/interact.py)

/-- The Hail type universe as discriminated by the widget actions. -/
inductive HailType where
  | tint32 | tint64 | tfloat32 | tfloat64
  | tbool | tstr | tcall
  | tlocus (rg : String)
  | tarray (elem : HailType)
  | tset (elem : HailType)
  | tdict (key value : HailType)
  | tstruct | ttuple
deriving DecidableEq

/-- An axis an expression can be indexed by (`expr._indices.axes`). -/
inductive Axis where
  | row | column
deriving DecidableEq

/-- What an action's `supports` inspects of an expression: its type and
its index axes. -/
structure SummaryExpr where
  dtype : HailType
  axes : List Axis
deriving DecidableEq

/-- The concrete `SummaryAction` instances registered in `actions`. -/
inductive SummaryAction where
  | clear | head | missingness | stats | hist | counter
  | lengthStats | lengthCounter | elementCounter | contigCounter
  | takeByAsc | takeByDesc | fractionNonZero
deriving DecidableEq

/-- `hl.expr.types.is_numeric`: the four numeric primitive types. -/
def isNumeric : HailType → Bool
  | .tint32 | .tint64 | .tfloat32 | .tfloat64 => true
  | _ => false

/-- An array, set or dictionary type. -/
def isContainer : HailType → Bool
  | .tarray _ | .tset _ | .tdict _ _ => true
  | _ => false

/-- Each action's `supports_type`, transcribed from `interact.py`. -/
def supportsType : SummaryAction → HailType → Bool
  | .clear, _ => true
  | .head, _ => true
  | .missingness, _ => true
  | .stats, t => isNumeric t
  | .hist, t => isNumeric t
  | .counter, t =>
      match t with
      | .tstr | .tcall | .tint32 | .tbool => true
      | _ => false
  | .lengthStats, t => decide (t = .tstr) || isContainer t
  | .lengthCounter, t => decide (t = .tstr) || isContainer t
  | .elementCounter, t => isContainer t
  | .contigCounter, t =>
      match t with
      | .tlocus _ => true
      | _ => false
  | .takeByAsc, t => isNumeric t
  | .takeByDesc, t => isNumeric t
  | .fractionNonZero, t => isNumeric t

/-- Which registered actions are `AggregationAction` subclasses — all of
them except `Clear` and `Head`. -/
def isAggregationAction : SummaryAction → Bool
  | .clear => false
  | .head => false
  | _ => true

/-- `SummaryAction.supports`: plain actions test only the type;
`AggregationAction.supports` additionally requires at least one axis. -/
def supports (a : SummaryAction) (e : SummaryExpr) : Bool :=
  if isAggregationAction a then
    decide (0 < e.axes.length) && supportsType a e.dtype
  else
    supportsType a e.dtype

/-- The registry list `actions` at the bottom of `interact.py`. -/
def actions : List SummaryAction :=
  [.clear, .head, .missingness, .stats, .hist, .counter, .lengthStats,
   .lengthCounter, .elementCounter, .contigCounter, .takeByAsc, .takeByDesc,
   .fractionNonZero]

-- ### Helper lemmas

lemma hasDupKeys_eq_false_iff (l : List Entry) :
    hasDupKeys l = false ↔ (l.map refKey).Nodup := by
  induction l with
  | nil => simp [hasDupKeys]
  | cons e rest ih =>
    simp only [hasDupKeys, Bool.or_eq_false_iff, ih, List.map_cons, List.nodup_cons,
      List.any_eq_false, decide_eq_false_iff_not, decide_eq_true_eq, List.mem_map]
    constructor
    · rintro ⟨h1, h2⟩
      exact ⟨fun ⟨x, hx, hk⟩ => h1 x hx hk, h2⟩
    · rintro ⟨h1, h2⟩
      exact ⟨fun x hx hk => h1 ⟨x, hx, hk⟩, h2⟩

lemma badRefEntry_false_iff (e : Entry) :
    badRefEntry e = false ↔ ∃ n, e.«END» = some n ∧ e.locus.position ≤ n := by
  cases h : e.«END» with
  | none => simp [badRefEntry, h]
  | some n => simp [badRefEntry, h, Nat.not_lt]

lemma countP_partition {α : Type} (p : α → Bool) (l : List α) :
    l.countP p + l.countP (fun a => !(p a)) = l.length := by
  induction l with
  | nil => simp
  | cons a t ih =>
    cases h : p a <;> simp [List.countP_cons, h] <;> omega

-- ### C2: validate accepts exactly the structurally valid datasets

/-- C2: `validate` succeeds (raises no value-domain error) iff
reference_data has no duplicate (locus, sample) row and every defined
reference entry has a defined `END` with `END >= locus.position`.  The
model is a pure function, so success leaves the dataset untouched. -/
theorem validate_ok_iff (vds : VariantDataset) :
    validate vds = Except.ok () ↔
      ((vds.refEntries.map refKey).Nodup ∧
        ∀ e ∈ vds.refEntries, ∃ n, e.«END» = some n ∧ e.locus.position ≤ n) := by
  unfold validate
  split_ifs with h1 h2
  · simp only [reduceCtorEq, false_iff]
    intro ⟨hnd, _⟩
    rw [← hasDupKeys_eq_false_iff] at hnd
    simp [h1] at hnd
  · simp only [reduceCtorEq, false_iff]
    intro ⟨_, hall⟩
    rcases List.any_eq_true.mp h2 with ⟨e, he, hbad⟩
    rcases hall e he with ⟨n, hn, hle⟩
    have : badRefEntry e = false := (badRefEntry_false_iff e).mpr ⟨n, hn, hle⟩
    rw [this] at hbad
    exact Bool.false_ne_true hbad
  · simp only [true_iff]
    refine ⟨(hasDupKeys_eq_false_iff _).mp (Bool.not_eq_true _ ▸ Bool.of_not_eq_true h1), ?_⟩
    intro e he
    have hb : badRefEntry e = false := by
      by_contra hb
      exact h2 (List.any_eq_true.mpr ⟨e, he, Bool.not_eq_false _ ▸ Bool.of_not_eq_false hb⟩)
    exact (badRefEntry_false_iff e).mp hb

-- ### C3: merged-representation round trip

/-- C3: converting a merged sparse matrix to the split VDS form and back
yields a matrix that is content-equal (a permutation, irrespective of
physical order) to the original. -/
theorem merged_roundtrip (m : List Entry) :
    (to_merged_sparse_mt (from_merged_representation m)).Perm m := by
  simpa [to_merged_sparse_mt, from_merged_representation] using
    List.filter_append_perm hasEND m

-- ### C6: entry counts of the split

/-- C6: `from_merged_representation` partitions the defined merged
entries: reference plus variant entry counts equal the merged entry
count, and the reference entry count equals the count of merged entries
with a defined `END`. -/
theorem from_merged_counts (m : List Entry) :
    (from_merged_representation m).refEntries.length +
        (from_merged_representation m).varEntries.length = m.length ∧
      (from_merged_representation m).refEntries.length = m.countP hasEND := by
  constructor
  · simpa [from_merged_representation, ← List.countP_eq_length_filter] using
      countP_partition hasEND m
  · simp [from_merged_representation, List.countP_eq_length_filter]

-- ### C9: the Python `same` wrapper hard-codes tolerance 1e-6

/-- C9: `VariantDataset.same` always hands the engine's equality check
the fixed tolerance `1e-6` — the tolerance is not configurable at this
interface — and under a pointwise-tolerance reading of the engine check
it identifies datasets that differ by at most `1e-6` in a numeric field,
so it is not exact equality. -/
theorem py_same_fixed_tolerance :
    (∀ (J : Type) (eng : J → J → ℚ → Bool) (a b : PyVariantDataset J),
        PyVariantDataset.same eng a b = eng a.jvds b.jvds (1 / 1000000)) ∧
      PyVariantDataset.same ratFieldsSame ⟨[0]⟩ ⟨[1 / 2000000]⟩ = true ∧
      (⟨[0]⟩ : PyVariantDataset (List ℚ)) ≠ ⟨[1 / 2000000]⟩ := by
  refine ⟨fun J eng a b => rfl, ?_, ?_⟩
  · norm_num [PyVariantDataset.same, ratFieldsSame, sameTolerance]
  · intro h
    rw [PyVariantDataset.mk.injEq] at h
    norm_num at h

-- ### C10: the widget action registry

/-- C10: `Clear` and `Head` support every Hail type, so every expression
node is offered at least these two registered actions, while every
registered `AggregationAction` requires at least one axis: an expression
with no axes is offered no aggregation action. -/
theorem actions_registry_axes (e : SummaryExpr) (t : HailType) :
    SummaryAction.clear ∈ actions ∧ SummaryAction.head ∈ actions ∧
      supports SummaryAction.clear e = true ∧ supports SummaryAction.head e = true ∧
      actions.filter (fun a => isAggregationAction a && supports a ⟨t, []⟩) = [] := by
  exact ⟨by simp [actions], by simp [actions], rfl, rfl, rfl⟩

-- ### C1: filter to a sample partition, then combine, is the identity

lemma mem_sampleUnion {s : String} {a b : List String} :
    s ∈ sampleUnion a b ↔ s ∈ a ∨ s ∈ b := by
  simp [sampleUnion, List.mem_filter]
  tauto

lemma filter_partition_perm {α : Type} {p q : α → Bool} {l : List α}
    (h : ∀ x ∈ l, q x = !(p x)) :
    (l.filter p ++ l.filter q).Perm l := by
  rw [List.filter_congr h]
  exact List.filter_append_perm p l

/-- C1: when the sample sets `A` and `B` exactly partition a well-formed
VDS's sample set, filtering to `A` and to `B` and recombining the two
halves yields a VDS whose reference_data and variant_data are
content-equal to the original's. -/
theorem filter_combine_roundtrip (vds : VariantDataset) (A B : List String)
    (hwf : WellFormed vds) (hnd : vds.samples.Nodup)
    (hpart : (A ++ B).Perm vds.samples) :
    ContentEq
      (combine_variant_datasets [filter_samples vds A false, filter_samples vds B false])
      vds := by
  have hABnd : (A ++ B).Nodup := hpart.nodup_iff.mpr hnd
  rw [List.nodup_append] at hABnd
  obtain ⟨-, -, hdisj⟩ := hABnd
  have key : ∀ (l : List Entry), (∀ e ∈ l, e.sample ∈ vds.samples) →
      ((l.filter (fun e => decide (e.sample ∈ A)) ++
          l.filter (fun e => decide (e.sample ∈ B))).Perm l) := by
    intro l hl
    apply filter_partition_perm
    intro e he
    have hs : e.sample ∈ A ++ B := hpart.mem_iff.mpr (hl e he)
    rcases List.mem_append.mp hs with h | h
    · have hnb : e.sample ∉ B := fun hb => hdisj h hb
      simp [h, hnb]
    · have hna : e.sample ∉ A := fun ha => hdisj ha h
      simp [h, hna]
  refine ⟨?_, ?_, ?_⟩
  · intro s
    simp only [combine_variant_datasets, List.foldr, merge2, emptyVDS, filter_samples,
      mem_sampleUnion, List.not_mem_nil, or_false]
    rw [← List.mem_append, hpart.mem_iff]
  · simp only [combine_variant_datasets, List.foldr, merge2, emptyVDS, filter_samples,
      List.append_nil]
    exact key vds.refEntries hwf.1
  · simp only [combine_variant_datasets, List.foldr, merge2, emptyVDS, filter_samples,
      if_neg Bool.false_ne_true, List.append_nil]
    exact key vds.varEntries hwf.2

-- ### C7: the combiner is order-insensitive

lemma combine_refEntries (l : List VariantDataset) :
    (combine_variant_datasets l).refEntries = (l.map (fun v => v.refEntries)).flatten := by
  induction l with
  | nil => rfl
  | cons v t ih =>
    simp only [combine_variant_datasets, List.foldr_cons, merge2, List.map_cons,
      List.flatten_cons] at ih ⊢
    rw [ih]

lemma combine_varEntries (l : List VariantDataset) :
    (combine_variant_datasets l).varEntries = (l.map (fun v => v.varEntries)).flatten := by
  induction l with
  | nil => rfl
  | cons v t ih =>
    simp only [combine_variant_datasets, List.foldr_cons, merge2, List.map_cons,
      List.flatten_cons] at ih ⊢
    rw [ih]

lemma mem_combine_samples (l : List VariantDataset) (s : String) :
    s ∈ (combine_variant_datasets l).samples ↔ ∃ v ∈ l, s ∈ v.samples := by
  induction l with
  | nil => simp [combine_variant_datasets, emptyVDS]
  | cons v t ih =>
    simp only [combine_variant_datasets, List.foldr_cons, merge2, mem_sampleUnion] at ih ⊢
    rw [ih]
    simp only [List.mem_cons]
    constructor
    · rintro (h | ⟨w, hw, hs⟩)
      · exact ⟨v, Or.inl rfl, h⟩
      · exact ⟨w, Or.inr hw, hs⟩
    · rintro ⟨w, (rfl | hw), hs⟩
      · exact Or.inl hs
      · exact Or.inr ⟨w, hw, hs⟩

/-- C7: `combine_variant_datasets` is order-insensitive — a permutation
of the input list gives a content-equal result, and pairwise merges
reassociate without changing content. -/
theorem combine_order_insensitive (l₁ l₂ : List VariantDataset) (h : l₁.Perm l₂)
    (a b c : VariantDataset) :
    ContentEq (combine_variant_datasets l₁) (combine_variant_datasets l₂) ∧
      ContentEq (merge2 (merge2 a b) c) (merge2 a (merge2 b c)) := by
  constructor
  · refine ⟨?_, ?_, ?_⟩
    · intro s
      rw [mem_combine_samples, mem_combine_samples]
      constructor <;> rintro ⟨v, hv, hs⟩
      · exact ⟨v, h.subset hv, hs⟩
      · exact ⟨v, h.symm.subset hv, hs⟩
    · rw [combine_refEntries, combine_refEntries]
      exact (h.map _).flatten
    · rw [combine_varEntries, combine_varEntries]
      exact (h.map _).flatten
  · refine ⟨?_, ?_, ?_⟩
    · intro s
      simp only [merge2, mem_sampleUnion]
      tauto
    · simp only [merge2]
      rw [List.append_assoc]
    · simp only [merge2]
      rw [List.append_assoc]

-- ### C5: invariants of the segmenter's output entries

/-- C5: every entry emitted by `segment_reference_blocks` satisfies
`END >= locus.position`, and `END < interval.end.position` unless the
entry's interval includes its end. -/
theorem segment_output_invariant (refs : List Entry) (intervals : List GenomicInterval)
    (hiv : ∀ I ∈ intervals,
      if I.includesEnd then I.startPos ≤ I.endPos else I.startPos < I.endPos)
    (hval : ∀ e ∈ refs, e.«END».isSome = true ∧ e.locus.position ≤ e.«END».getD 0)
    (o : SegEntry) (ho : o ∈ segment_reference_blocks refs intervals) :
    o.locus.position ≤ o.«END» ∧
      (o.interval.includesEnd = false → o.«END» < o.interval.endPos) := by
  rcases List.mem_flatMap.mp ho with ⟨e, he, hoe⟩
  cases hE : e.«END» with
  | none => simp [segmentEntry, hE] at hoe
  | some n =>
    simp only [segmentEntry, hE] at hoe
    rcases List.mem_map.mp hoe with ⟨I, hI, rfl⟩
    rcases List.mem_filter.mp hI with ⟨hIin, hov⟩
    simp only [overlapsB, Bool.and_eq_true, decide_eq_true_eq] at hov
    obtain ⟨⟨hc, hst⟩, hpl⟩ := hov
    have hpos : e.locus.position ≤ n := by
      have h := (hval e he).2
      rwa [hE] at h
    have hbound := hiv I hIin
    constructor
    · cases hinc : I.includesEnd <;>
        simp only [lastPos, hinc] at hbound hpl ⊢ <;>
        simp at hbound hpl ⊢ <;> omega
    · intro hie
      have hie' : I.includesEnd = false := hie
      simp only [lastPos, hie'] at hbound hpl ⊢
      simp at hbound hpl ⊢
      omega

-- ### C4: segmentation preserves per-sample covered bases

lemma piece_len_eq_card (pos n : Nat) (I : GenomicInterval) (c : String)
    (hc : I.contig = c) :
    min n (lastPos I) + 1 - max pos I.startPos =
      ((Finset.Icc pos n).filter (fun q => coversB I c q = true)).card := by
  have hset : (Finset.Icc pos n).filter (fun q => coversB I c q = true)
      = Finset.Icc (max pos I.startPos) (min n (lastPos I)) := by
    ext q
    simp only [Finset.mem_filter, Finset.mem_Icc, coversB, Bool.and_eq_true,
      decide_eq_true_eq, hc, max_le_iff, le_min_iff]
    constructor
    · intro h
      tauto
    · intro h
      tauto
  rw [hset, Nat.card_Icc]

lemma piece_card_zero (pos n : Nat) (I : GenomicInterval) (c : String)
    (hov : overlapsB I c pos n = false) :
    ((Finset.Icc pos n).filter (fun q => coversB I c q = true)).card = 0 := by
  rw [Finset.card_eq_zero, Finset.filter_eq_empty_iff]
  intro q hq
  simp only [Finset.mem_Icc] at hq
  simp only [coversB, Bool.and_eq_true, decide_eq_true_eq, not_and]
  rintro ⟨hc, hsq⟩ hql
  have : overlapsB I c pos n = true := by
    simp only [overlapsB, Bool.and_eq_true, decide_eq_true_eq]
    exact ⟨⟨hc, le_trans hsq hq.2⟩, le_trans hq.1 hql⟩
  rw [hov] at this
  exact Bool.false_ne_true this

lemma sum_card_filter_icc (c : String) (pos n : Nat) (l : List GenomicInterval) :
    (l.map (fun I => ((Finset.Icc pos n).filter (fun q => coversB I c q = true)).card)).sum
      = ∑ q ∈ Finset.Icc pos n, l.countP (fun I => coversB I c q) := by
  induction l with
  | nil => simp
  | cons I t ih =>
    simp only [List.map_cons, List.sum_cons, ih, List.countP_cons]
    rw [Finset.card_filter, ← Finset.sum_add_distrib]
    exact Finset.sum_congr rfl (fun q _ => by rw [add_comm])

lemma sum_map_filter_eq {α : Type} (f g : α → Nat) (ov : α → Bool) (l : List α)
    (h1 : ∀ x ∈ l, ov x = true → f x = g x)
    (h2 : ∀ x ∈ l, ov x = false → g x = 0) :
    ((l.filter ov).map f).sum = (l.map g).sum := by
  induction l with
  | nil => rfl
  | cons x t ih =>
    have iht := ih (fun y hy h => h1 y (List.mem_cons_of_mem x hy) h)
      (fun y hy h => h2 y (List.mem_cons_of_mem x hy) h)
    cases hx : ov x with
    | true => simp [List.filter_cons, hx, iht, h1 x (List.mem_cons_self x t) hx]
    | false => simp [List.filter_cons, hx, iht, h2 x (List.mem_cons_self x t) hx]

lemma overlapsB_contig (I : GenomicInterval) (c : String) (pos n : Nat)
    (hov : overlapsB I c pos n = true) : I.contig = c := by
  simp only [overlapsB, Bool.and_eq_true, decide_eq_true_eq] at hov
  exact hov.1.1

lemma segmentEntry_len_sum (ivs : List GenomicInterval) (e : Entry) (n : Nat)
    (hE : e.«END» = some n)
    (hcov : ∀ q ∈ Finset.Icc e.locus.position n,
        ivs.countP (fun I => coversB I e.locus.contig q) = 1) :
    ((segmentEntry ivs e).map segLen).sum = n + 1 - e.locus.position := by
  simp only [segmentEntry, hE, List.map_map]
  have hcomp : (segLen ∘ fun I =>
      ({ interval := I,
         locus := ⟨e.locus.contig, max e.locus.position I.startPos⟩,
         sample := e.sample,
         «END» := min n (lastPos I) } : SegEntry))
      = fun I => min n (lastPos I) + 1 - max e.locus.position I.startPos := rfl
  rw [hcomp]
  rw [sum_map_filter_eq _
      (fun I => ((Finset.Icc e.locus.position n).filter
        (fun q => coversB I e.locus.contig q = true)).card) _ ivs
      (fun I _ hov => piece_len_eq_card e.locus.position n I e.locus.contig
        (overlapsB_contig I e.locus.contig e.locus.position n hov))
      (fun I _ hov => piece_card_zero e.locus.position n I e.locus.contig hov)]
  rw [sum_card_filter_icc, Finset.sum_congr rfl hcov]
  simp [Nat.card_Icc]

lemma segmentEntry_sample (ivs : List GenomicInterval) (e : Entry) :
    ∀ o ∈ segmentEntry ivs e, o.sample = e.sample := by
  intro o ho
  cases hE : e.«END» with
  | none => simp [segmentEntry, hE] at ho
  | some n =>
    simp only [segmentEntry, hE] at ho
    rcases List.mem_map.mp ho with ⟨I, _, rfl⟩
    rfl

lemma segCoverage_flatMap (refs : List Entry) (ivs : List GenomicInterval) (s : String) :
    segCoverage (segment_reference_blocks refs ivs) s =
      (refs.map (fun e =>
        if e.sample = s then ((segmentEntry ivs e).map segLen).sum else 0)).sum := by
  induction refs with
  | nil => rfl
  | cons e t ih =>
    unfold segCoverage at ih ⊢
    simp only [segment_reference_blocks, List.flatMap_cons, List.filter_append,
      List.map_append, List.sum_append, List.map_cons, List.sum_cons] at ih ⊢
    rw [ih]
    congr 1
    by_cases hs : e.sample = s
    · have hfil : (segmentEntry ivs e).filter (fun o => decide (o.sample = s))
          = segmentEntry ivs e := by
        apply List.filter_eq_self.mpr
        intro o ho
        rw [segmentEntry_sample ivs e o ho, hs]
        simp
      rw [if_pos hs, hfil]
    · have hfil : (segmentEntry ivs e).filter (fun o => decide (o.sample = s)) = [] := by
        apply List.filter_eq_nil_iff.mpr
        intro o ho
        rw [segmentEntry_sample ivs e o ho]
        simp [hs]
      rw [if_neg hs, hfil]
      rfl

lemma refCoverage_map (refs : List Entry) (s : String) :
    refCoverage refs s = (refs.map (fun e => if e.sample = s then entryLen e else 0)).sum := by
  induction refs with
  | nil => rfl
  | cons e t ih =>
    unfold refCoverage at ih ⊢
    simp only [List.filter_cons]
    by_cases hs : e.sample = s
    · simp [hs, ih]
    · simp [hs, ih]

/-- C4: for every interval partition (each position of every reference
entry's span is covered by exactly one interval) the per-sample total of
covered bases — the sum of `END + 1 - locus.position` over reference
entries — is unchanged by `segment_reference_blocks`. -/
theorem segment_preserves_coverage (refs : List Entry) (ivs : List GenomicInterval)
    (s : String)
    (hval : ∀ e ∈ refs, e.«END».isSome = true ∧ e.locus.position ≤ e.«END».getD 0)
    (hcov : ∀ e ∈ refs, ∀ q ∈ Finset.Icc e.locus.position (e.«END».getD 0),
        ivs.countP (fun I => coversB I e.locus.contig q) = 1) :
    segCoverage (segment_reference_blocks refs ivs) s = refCoverage refs s := by
  rw [segCoverage_flatMap, refCoverage_map]
  congr 1
  apply List.map_congr_left
  intro e he
  by_cases hs : e.sample = s
  · rw [if_pos hs, if_pos hs]
    obtain ⟨hsome, -⟩ := hval e he
    obtain ⟨n, hn⟩ := Option.isSome_iff_exists.mp hsome
    have hc := hcov e he
    rw [hn] at hc
    simp only [Option.getD_some] at hc
    rw [segmentEntry_len_sum ivs e n hn hc]
    unfold entryLen
    rw [hn]
    rfl
  · rw [if_neg hs, if_neg hs]

-- ### C8: dead-allele removal never drops the reference allele

lemma alleleLive_zero (ents : List Entry) (loc : Locus) (als : List String) :
    alleleLive ents loc als 0 = true := by
  simp [alleleLive]

lemma mem_keptAlleleIdxs (varE : List Entry) (e : Entry) (he : e ∈ varE)
    (i : Nat) (hi : i ∈ e.LA) (hlt : i < e.alleles.length) :
    i ∈ keptAlleleIdxs varE e.locus e.alleles := by
  unfold keptAlleleIdxs
  apply List.mem_filter.mpr
  refine ⟨List.mem_range.mpr hlt, ?_⟩
  unfold alleleLive
  have hany : varE.any (fun x => decide (x.locus = e.locus) && decide (x.alleles = e.alleles)
      && decide (i ∈ x.LA)) = true :=
    List.any_eq_true.mpr ⟨e, he, by simp [hi]⟩
  rw [hany]
  simp

/-- C8: `filter_samples` with `remove_dead_alleles` keeps the reference
allele (index 0) at the head of every site's new allele list — even when
no retained entry references an alternate allele — and renumbers the
local-allele indices consistently: a renumbered `LA` index points at the
same allele string in the new list as the old index did in the old one. -/
theorem filter_samples_remove_dead_alleles (vds : VariantDataset) (keep : List String)
    (e : Entry) (he : e ∈ filterBySample keep vds.varEntries)
    (i : Nat) (hi : i ∈ e.LA) (hlt : i < e.alleles.length) :
    (remapEntry (filterBySample keep vds.varEntries) e).alleles.head? = e.alleles.head? ∧
      (remapEntry (filterBySample keep vds.varEntries) e).LA =
        e.LA.map (fun j =>
          (keptAlleleIdxs (filterBySample keep vds.varEntries) e.locus e.alleles).indexOf j) ∧
      (remapEntry (filterBySample keep vds.varEntries) e).alleles.getD
          ((keptAlleleIdxs (filterBySample keep vds.varEntries) e.locus e.alleles).indexOf i) ""
        = e.alleles.getD i "" ∧
      (filter_samples vds keep true).varEntries =
        (filterBySample keep vds.varEntries).map
          (remapEntry (filterBySample keep vds.varEntries)) := by
  set varE := filterBySample keep vds.varEntries with hvarE
  refine ⟨?_, rfl, ?_, rfl⟩
  · cases halleles : e.alleles with
    | nil => simp [remapEntry, keptAlleleIdxs, halleles]
    | cons a0 rest =>
      have hkept : keptAlleleIdxs varE e.locus e.alleles
          = 0 :: ((List.range rest.length).map Nat.succ).filter
              (alleleLive varE e.locus e.alleles) := by
        unfold keptAlleleIdxs
        rw [halleles]
        simp only [List.length_cons, List.range_succ_eq_map, List.filter_cons,
          alleleLive_zero, if_true]
      rw [halleles] at hkept
      simp only [remapEntry, halleles, hkept, List.map_cons, List.head?_cons,
        List.getD_cons_zero]
  · have hmem : i ∈ keptAlleleIdxs varE e.locus e.alleles :=
      mem_keptAlleleIdxs varE e he i hi hlt
    set kept := keptAlleleIdxs varE e.locus e.alleles with hkeptdef
    have hidx : kept.indexOf i < kept.length := List.indexOf_lt_length.mpr hmem
    have hget : kept.get ⟨kept.indexOf i, hidx⟩ = i := List.indexOf_get hidx
    rw [List.get_eq_getElem] at hget
    have hsome : kept[kept.indexOf i]? = some i := by
      rw [List.getElem?_eq_getElem hidx, hget]
    simp only [remapEntry]
    rw [List.getD_eq_getElem?_getD, List.getElem?_map, hsome]
    rfl

-- ### Concrete data for witnesses

/-- A locus used by the concrete examples. -/
def locA : Locus := ⟨"chr22", 100⟩

/-- A second locus used by the concrete examples. -/
def locB : Locus := ⟨"chr22", 200⟩

/-- A small two-sample VDS used to witness the filter/combine round trip. -/
def wVds : VariantDataset :=
  ⟨["s1", "s2"],
   [⟨locA, "s1", ["A"], some 150, [], []⟩, ⟨locA, "s2", ["A"], some 120, [], []⟩],
   [⟨locB, "s1", ["A", "T"], none, [0, 1], [0, 1]⟩, ⟨locB, "s2", ["A", "T"], none, [0], [0, 0]⟩]⟩

/-- Witness for C1 at a concrete two-sample VDS split into singletons. -/
theorem filter_combine_roundtrip_witness :
    ContentEq
      (combine_variant_datasets
        [filter_samples wVds ["s1"] false, filter_samples wVds ["s2"] false])
      wVds :=
  filter_combine_roundtrip wVds ["s1"] ["s2"] (by decide) (by decide) (by decide)

/-- Concrete reference entries used to witness the segmenter claims. -/
def wRefs : List Entry := [⟨⟨"chr22", 100⟩, "s1", ["A"], some 150, [], []⟩]

/-- Concrete interval partition used to witness the segmenter claims. -/
def wIvs : List GenomicInterval :=
  [⟨"chr22", 1, 120, false⟩, ⟨"chr22", 120, 200, true⟩]

/-- Witness for C4 at a concrete entry split across two intervals. -/
theorem segment_preserves_coverage_witness :
    segCoverage (segment_reference_blocks wRefs wIvs) "s1" = refCoverage wRefs "s1" :=
  segment_preserves_coverage wRefs wIvs "s1" (by decide) (by decide)

/-- The first piece the segmenter emits for `wRefs` against `wIvs`. -/
def wSeg : SegEntry := ⟨⟨"chr22", 1, 120, false⟩, ⟨"chr22", 100⟩, "s1", 119⟩

/-- Witness for C5 at a concrete emitted entry. -/
theorem segment_output_invariant_witness :
    wSeg.locus.position ≤ wSeg.«END» ∧
      (wSeg.interval.includesEnd = false → wSeg.«END» < wSeg.interval.endPos) :=
  segment_output_invariant wRefs wIvs (by decide) (by decide) wSeg (by decide)

/-- A one-sample VDS used to witness combiner order-insensitivity. -/
def wVds1 : VariantDataset :=
  ⟨["s1"], [⟨locA, "s1", ["A"], some 150, [], []⟩],
   [⟨locB, "s1", ["A", "T"], none, [0, 1], [0, 1]⟩]⟩

/-- A second one-sample VDS used to witness combiner order-insensitivity. -/
def wVds2 : VariantDataset :=
  ⟨["s2"], [⟨locA, "s2", ["A"], some 120, [], []⟩],
   [⟨locB, "s2", ["A", "T"], none, [0], [0, 0]⟩]⟩

/-- Witness for C7 at a concrete swapped input pair. -/
theorem combine_order_insensitive_witness :
    (ContentEq (combine_variant_datasets [wVds1, wVds2])
        (combine_variant_datasets [wVds2, wVds1]) ∧
      ContentEq (merge2 (merge2 wVds1 wVds2) wVds1)
        (merge2 wVds1 (merge2 wVds2 wVds1))) :=
  combine_order_insensitive [wVds1, wVds2] [wVds2, wVds1] (by decide) wVds1 wVds2 wVds1

/-- A variant entry whose allele 1 is dead once sample s2 is dropped. -/
def wE8 : Entry := ⟨locB, "s1", ["A", "T", "C"], none, [0, 2], [0, 1]⟩

/-- A VDS used to witness dead-allele removal: filtering to s1 kills
allele index 1 but keeps the reference allele and renumbers index 2. -/
def wVds8 : VariantDataset :=
  ⟨["s1", "s2"], [],
   [wE8, ⟨locB, "s2", ["A", "T", "C"], none, [0, 1], [0, 1]⟩]⟩

/-- Witness for C8 at a concrete site with a dead alternate allele. -/
theorem filter_samples_remove_dead_alleles_witness :
    (remapEntry (filterBySample ["s1"] wVds8.varEntries) wE8).alleles.head?
        = wE8.alleles.head? ∧
      (remapEntry (filterBySample ["s1"] wVds8.varEntries) wE8).LA =
        wE8.LA.map (fun j =>
          (keptAlleleIdxs (filterBySample ["s1"] wVds8.varEntries)
            wE8.locus wE8.alleles).indexOf j) ∧
      (remapEntry (filterBySample ["s1"] wVds8.varEntries) wE8).alleles.getD
          ((keptAlleleIdxs (filterBySample ["s1"] wVds8.varEntries)
            wE8.locus wE8.alleles).indexOf 2) ""
        = wE8.alleles.getD 2 "" ∧
      (filter_samples wVds8 ["s1"] true).varEntries =
        (filterBySample ["s1"] wVds8.varEntries).map
          (remapEntry (filterBySample ["s1"] wVds8.varEntries)) :=
  filter_samples_remove_dead_alleles wVds8 ["s1"] wE8 (by decide) 2 (by decide) (by decide)
